import Mathlib

/-!
Verification of the Markdown pipe-table scanner and serializer
(`src/tableParser.ts` of visual-table-canvas-for-markdown).

Strings are modelled as lists of characters (`Str`), grids as lists of
rows of cell strings.  All functions below are direct translations of the
TypeScript source; fuel parameters are used where the original loop is not
structurally recursive, with the fuel fixed to an amount that the loop can
never exhaust.
-/

set_option maxRecDepth 8000

/-- Strings are modelled as lists of characters. -/
abbrev Str := List Char

/-- A table row is a list of cell strings. -/
abbrev Row := List Str

/-- Characters stripped by JavaScript `String.prototype.trim` and matched by
the regex class `\s`: the ECMA-262 WhiteSpace set (TAB, VT, FF, SP, NBSP,
ZWNBSP and the Unicode Space_Separator code points) together with the
LineTerminator set (LF, CR, LS, PS). -/
def isWsChar (c : Char) : Bool :=
  c = ' ' || c = '\t' || c = '\n' || c = '\r' || c = '\x0b' || c = '\x0c' ||
  c = '\u00A0' || c = '\u1680' || ('\u2000' ≤ c && c ≤ '\u200A') ||
  c = '\u2028' || c = '\u2029' || c = '\u202F' || c = '\u205F' ||
  c = '\u3000' || c = '\uFEFF'

/-- JavaScript `s.trim()`: drop whitespace from both ends. -/
def trim (s : Str) : Str :=
  ((s.dropWhile isWsChar).reverse.dropWhile isWsChar).reverse

/-- JavaScript `s.startsWith(c)` for a one-character argument. -/
def strStartsWith (s : Str) (c : Char) : Bool :=
  match s with
  | [] => false
  | x :: _ => x = c

/-- JavaScript `s.endsWith(c)` for a one-character argument. -/
def strEndsWith (s : Str) (c : Char) : Bool :=
  match s.getLast? with
  | none => false
  | some x => x = c

/-- Helper for `splitOnChar`: prepend a character to the first chunk. -/
def consHead (c : Char) : List Str → List Str
  | [] => [[c]]
  | s :: ss => (c :: s) :: ss

/-- JavaScript `s.split(sep)` for a one-character separator: always returns
at least one chunk, and one more chunk per separator occurrence. -/
def splitOnChar (sep : Char) : Str → List Str
  | [] => [[]]
  | c :: rest =>
    if c = sep then [] :: splitOnChar sep rest
    else consHead c (splitOnChar sep rest)

/-- JavaScript `parts.join(sep)`. -/
def joinWith (sep : Str) : List Str → Str
  | [] => []
  | [x] => x
  | x :: y :: rest => x ++ sep ++ joinWith sep (y :: rest)

/-- JavaScript `s.padEnd(n)`: right-pad with spaces up to length `n`. -/
def padEnd (s : Str) (n : Nat) : Str :=
  s ++ List.replicate (n - s.length) ' '

/-- The private sentinel `"\x00PIPE\x00"` used by `parseTableRow` to protect
escaped pipes during the split. -/
def PIPE_PLACEHOLDER : Str := ['\x00', 'P', 'I', 'P', 'E', '\x00']

/-- `value.replace(/\|/g, '\\|')` from `escapePipeInCell`. -/
def escapePipeInCell : Str → Str
  | [] => []
  | c :: rest =>
    if c = '|' then '\\' :: '|' :: escapePipeInCell rest
    else c :: escapePipeInCell rest

/-- `content.replace(/\\\|/g, PIPE_PLACEHOLDER)`: left-to-right replacement
of every `\|` by the sentinel. -/
def protectEscapedPipes : Str → Str
  | [] => []
  | [c] => [c]
  | c1 :: c2 :: rest =>
    if c1 = '\\' && c2 = '|' then PIPE_PLACEHOLDER ++ protectEscapedPipes rest
    else c1 :: protectEscapedPipes (c2 :: rest)

/-- Fuel-driven worker for `restorePlaceholder`; the fuel is fixed to the
string length, which the left-to-right scan can never exhaust. -/
def restoreAux : Nat → Str → Str
  | 0, s => s
  | _ + 1, [] => []
  | fuel + 1, c :: rest =>
    if PIPE_PLACEHOLDER.isPrefixOf (c :: rest) then
      '|' :: restoreAux fuel (rest.drop (PIPE_PLACEHOLDER.length - 1))
    else c :: restoreAux fuel rest

/-- `cell.replace(new RegExp(PIPE_PLACEHOLDER, 'g'), '|')`: left-to-right
replacement of every sentinel occurrence by a literal pipe. -/
def restorePlaceholder (s : Str) : Str := restoreAux s.length s

/-- `parseTableRow` from the source: a line parses only when its trimmed
text both starts and ends with a pipe; escaped pipes are protected by the
sentinel, the content is split on bare pipes, and each cell is restored
and trimmed. -/
def parseTableRow (line : Str) : Option (List Str) :=
  let trimmed := trim line
  if strStartsWith trimmed '|' && strEndsWith trimmed '|' then
    let content := (trimmed.drop 1).dropLast
    let escaped := protectEscapedPipes content
    some ((splitOnChar '|' escaped).map fun cell => trim (restorePlaceholder cell))
  else none

/-- `isSeparatorRow` from the source: pipe-wrapped, and every segment of the
inner split consists only of whitespace, colons and dashes and contains at
least one dash. -/
def isSeparatorRow (line : Str) : Bool :=
  let trimmed := trim line
  if strStartsWith trimmed '|' && strEndsWith trimmed '|' then
    let content := (trimmed.drop 1).dropLast
    let cells := splitOnChar '|' content
    cells.all fun cell =>
      !cell.isEmpty && cell.all (fun c => isWsChar c || c = ':' || c = '-') &&
        cell.contains '-'
  else false

/-- `isTableRow` from the source. -/
def isTableRow (line : Str) : Bool :=
  let trimmed := trim line
  strStartsWith trimmed '|' && strEndsWith trimmed '|'

/-- A parsed table record (`TableInfo` in the source). -/
structure TableInfo where
  startLine : Nat
  endLine : Nat
  data : List Row
  rawText : Str
deriving DecidableEq, Repr

/-- The predicate of the scanner's inner data-row loop. -/
def dataRowPred (l : Str) : Bool := isTableRow l && !isSeparatorRow l

/-- Fuel-driven worker of `parseMarkdownTables`.  `i` is the index of the
first line of `ls` in the whole document; the fuel is fixed to the number
of lines, which the scan (consuming at least one line per step) can never
exhaust.  The raw text is the consumed slice of the original lines. -/
def scanAux : Nat → Nat → List Str → List TableInfo
  | 0, _, _ => []
  | _ + 1, _, [] => []
  | fuel + 1, i, l :: rest =>
    if !isTableRow l then scanAux fuel (i + 1) rest
    else
      match parseTableRow l with
      | none => scanAux fuel (i + 1) rest
      | some headerRow =>
        match rest with
        | [] => []
        | sep :: rest2 =>
          if !isSeparatorRow sep then scanAux fuel (i + 1) rest
          else
            let body := rest2.takeWhile dataRowPred
            let rest3 := rest2.dropWhile dataRowPred
            { startLine := i
              endLine := i + 1 + body.length
              data := headerRow :: body.filterMap parseTableRow
              rawText := joinWith ['\n'] (l :: sep :: body) } ::
              scanAux fuel (i + 2 + body.length) rest3

/-- `parseMarkdownTables` from the source: split the document on line feeds
and scan for tables. -/
def parseMarkdownTables (text : Str) : List TableInfo :=
  let lines := splitOnChar '\n' text
  scanAux lines.length 0 lines

/-- Math.max over the row lengths, 0 for an empty grid (the source guards
the empty case separately wherever it matters). -/
def maxRowLen (data : List Row) : Nat :=
  data.foldl (fun m r => max m r.length) 0

/-- The per-column width loop of `tableToMarkdown`: start from the minimum
width 3 and widen by every escaped cell present in the column. -/
def columnWidth (data : List Row) (col : Nat) : Nat :=
  data.foldl
    (fun maxWidth row =>
      if col < row.length then
        max maxWidth (escapePipeInCell (row.getD col [])).length
      else maxWidth)
    3

/-- `tableToMarkdown` from the source: canonical serialization with
per-column padding and a dash separator after the header row. -/
def tableToMarkdown (data : List Row) : Str :=
  match data with
  | [] => []
  | first :: rest =>
    let columnCount := maxRowLen (first :: rest)
    let columnWidths := (List.range columnCount).map (columnWidth (first :: rest))
    let renderRow := fun (row : Row) =>
      let cells := (List.range columnCount).map fun col =>
        padEnd (escapePipeInCell (row.getD col [])) (columnWidths.getD col 0)
      ['|', ' '] ++ joinWith [' ', '|', ' '] cells ++ [' ', '|']
    let separator :=
      ['|', ' '] ++
        joinWith [' ', '|', ' '] (columnWidths.map fun w => List.replicate w '-') ++
        [' ', '|']
    joinWith ['\n'] (renderRow first :: separator :: rest.map renderRow)

/-- Dropping the line at index 1 (the separator position) from the original
lines, as `tableToMarkdownPreserveFormat` does before filtering. -/
def dropSecondLine : List Str → List Str
  | a :: _ :: tl => a :: tl
  | other => other

/-- The candidate original data-row lines: every line except index 1 that is
a table row and not itself a separator row. -/
def originalDataLinesOf (originalRawText : Str) : List Str :=
  (dropSecondLine (splitOnChar '\n' originalRawText)).filter fun l =>
    isTableRow l && !isSeparatorRow l

/-- The inner `rowMatchesOriginal` helper of `tableToMarkdownPreserveFormat`. -/
def rowMatchesOriginal (data originalData : List Row) (rowIndex : Nat) : Bool :=
  rowIndex < originalData.length &&
    data.getD rowIndex [] == originalData.getD rowIndex []

/-- The inner `formatRow` helper of `tableToMarkdownPreserveFormat`: minimal
one-space padding, pipes escaped, no column-width computation. -/
def formatRow (row : Row) : Str :=
  '|' :: joinWith ['|'] (row.map fun cell => ' ' :: (escapePipeInCell cell ++ [' '])) ++ ['|']

/-- The emission of one row: an unchanged in-range row re-emits its original
source line, any other row is re-formatted with minimal padding. -/
def emitRow (data originalData : List Row) (originalDataLines : List Str)
    (rowIndex : Nat) (row : Row) : Str :=
  if rowMatchesOriginal data originalData rowIndex &&
      rowIndex < originalDataLines.length then
    originalDataLines.getD rowIndex []
  else formatRow row

/-- The freshly generated minimal separator (`---` per column of the header
row), used when no original separator line is available. -/
def synthSeparator (first : Row) : Str :=
  ['|', ' '] ++ joinWith [' ', '|', ' '] (first.map fun _ => ['-', '-', '-']) ++ [' ', '|']

/-- The separator line emitted by `tableToMarkdownPreserveFormat`: the
original line at index 1 when it exists and is non-empty (the JavaScript
truthiness test makes an empty string fall through), else a fresh one. -/
def separatorLineOf (originalLines : List Str) (first : Row) : Str :=
  match originalLines[1]? with
  | some s => if s.isEmpty then synthSeparator first else s
  | none => synthSeparator first

/-- `tableToMarkdownPreserveFormat` from the source.  Unchanged in-range rows
re-emit their original source line; the original separator line is re-used
when non-empty; a column count change falls back to the canonical
serializer. -/
def tableToMarkdownPreserveFormat (data : List Row) (originalRawText : Str)
    (originalData : List Row) : Str :=
  match data with
  | [] => []
  | first :: rest =>
    let originalLines := splitOnChar '\n' originalRawText
    let originalDataLines := originalDataLinesOf originalRawText
    let newColumnCount := maxRowLen (first :: rest)
    let originalColumnCount :=
      if 0 < originalData.length then maxRowLen originalData else 0
    if newColumnCount ≠ originalColumnCount then tableToMarkdown (first :: rest)
    else
      joinWith ['\n']
        (emitRow (first :: rest) originalData originalDataLines 0 first ::
          separatorLineOf originalLines first ::
          (List.range rest.length).map fun j =>
            emitRow (first :: rest) originalData originalDataLines (j + 1)
              (rest.getD j []))

/-- Shorthand for string literals as character lists. -/
def str (s : String) : Str := s.data

/-! ### Whitespace and trimming lemmas -/

lemma dropWhile_length_le {α : Type} (p : α → Bool) (l : List α) :
    (l.dropWhile p).length ≤ l.length := by
  induction l with
  | nil => simp
  | cons a t ih =>
    rw [List.dropWhile_cons]
    by_cases hp : p a
    · rw [if_pos hp]; exact Nat.le_succ_of_le ih
    · rw [if_neg hp]

lemma dropWhile_ws_append (w s : Str) (hw : ∀ x ∈ w, isWsChar x = true) :
    (w ++ s).dropWhile isWsChar = s.dropWhile isWsChar := by
  induction w with
  | nil => rfl
  | cons a t ih =>
    have ha := hw a (List.mem_cons_self a t)
    simp [List.dropWhile_cons, ha, ih fun x hx => hw x (List.mem_cons_of_mem a hx)]

lemma dropWhile_ws_all (w : Str) (hw : ∀ x ∈ w, isWsChar x = true) :
    w.dropWhile isWsChar = [] := by
  have := dropWhile_ws_append w [] hw
  simpa using this

lemma dropWhile_eq_self_of_length (p : Char → Bool) (l : Str)
    (h : (l.dropWhile p).length = l.length) : l.dropWhile p = l := by
  induction l with
  | nil => rfl
  | cons a t ih =>
    by_cases hp : p a
    · exfalso
      rw [List.dropWhile_cons, if_pos hp] at h
      have := dropWhile_length_le p t
      simp at h
      omega
    · rw [List.dropWhile_cons, if_neg hp]

lemma trim_parts_of_eq (s : Str) (h : trim s = s) :
    s.dropWhile isWsChar = s ∧ s.reverse.dropWhile isWsChar = s.reverse := by
  have e1 : (s.dropWhile isWsChar).length = s.length := by
    have a1 : (trim s).length ≤ (s.dropWhile isWsChar).length := by
      unfold trim
      have h2 := dropWhile_length_le isWsChar (s.dropWhile isWsChar).reverse
      simpa using h2
    have a2 : (s.dropWhile isWsChar).length ≤ s.length := dropWhile_length_le _ _
    have a3 : (trim s).length = s.length := by rw [h]
    omega
  have hdw : s.dropWhile isWsChar = s := dropWhile_eq_self_of_length _ _ e1
  refine ⟨hdw, ?_⟩
  have h2 : (s.reverse.dropWhile isWsChar).reverse = s := by
    have : trim s = (s.reverse.dropWhile isWsChar).reverse := by
      unfold trim; rw [hdw]
    rw [← this, h]
  have := congrArg List.reverse h2
  simpa using this

lemma head_not_ws_of_dropWhile_eq (a : Char) (t : Str)
    (h : (a :: t).dropWhile isWsChar = a :: t) : isWsChar a = false := by
  by_cases hp : isWsChar a
  · exfalso
    rw [List.dropWhile_cons, if_pos hp] at h
    have h1 := dropWhile_length_le isWsChar t
    have h2 := congrArg List.length h
    simp at h2
    omega
  · simpa using hp

lemma trim_ws_sandwich (w1 w2 s : Str) (h1 : ∀ x ∈ w1, isWsChar x = true)
    (h2 : ∀ x ∈ w2, isWsChar x = true) (hs : trim s = s) :
    trim (w1 ++ s ++ w2) = s := by
  obtain ⟨hl, hr⟩ := trim_parts_of_eq s hs
  unfold trim
  rw [List.append_assoc, dropWhile_ws_append w1 (s ++ w2) h1]
  cases s with
  | nil =>
    simp only [List.nil_append]
    rw [dropWhile_ws_all w2 h2]
    rfl
  | cons a t =>
    have ha : isWsChar a = false := head_not_ws_of_dropWhile_eq a t hl
    rw [List.cons_append, List.dropWhile_cons, if_neg (by simp [ha])]
    rw [show a :: (t ++ w2) = (a :: t) ++ w2 by simp]
    rw [List.reverse_append,
      dropWhile_ws_append w2.reverse _ (fun x hx => h2 x (List.mem_reverse.mp hx)), hr]
    simp

lemma trim_pipe_wrapped (xs : Str) : trim ('|' :: xs ++ ['|']) = '|' :: xs ++ ['|'] := by
  unfold trim
  rw [show ('|' :: xs ++ ['|'] : Str) = '|' :: (xs ++ ['|']) by simp]
  rw [List.dropWhile_cons, if_neg (by simp [isWsChar])]
  rw [show ('|' :: (xs ++ ['|']) : Str).reverse = '|' :: (xs.reverse ++ ['|']) by simp]
  rw [List.dropWhile_cons, if_neg (by simp [isWsChar])]
  simp

/-! ### Split and join lemmas -/

lemma splitOnChar_ne_nil (sep : Char) (s : Str) : splitOnChar sep s ≠ [] := by
  induction s with
  | nil => simp [splitOnChar]
  | cons c rest ih =>
    by_cases h : c = sep
    · simp [splitOnChar, h]
    · rw [splitOnChar, if_neg h]
      cases hs : splitOnChar sep rest with
      | nil => simp [consHead]
      | cons a b => simp [consHead]

lemma splitOnChar_no_sep (sep : Char) (s : Str) (h : sep ∉ s) : splitOnChar sep s = [s] := by
  induction s with
  | nil => rfl
  | cons c rest ih =>
    have hc : ¬(c = sep) := fun e => h (e ▸ List.mem_cons_self c rest)
    rw [splitOnChar, if_neg hc, ih fun m => h (List.mem_cons_of_mem c m)]
    rfl

lemma splitOnChar_append_cons (sep : Char) (a z : Str) (h : sep ∉ a) :
    splitOnChar sep (a ++ sep :: z) = a :: splitOnChar sep z := by
  induction a with
  | nil => simp [splitOnChar]
  | cons c t ih =>
    have hc : ¬(c = sep) := fun e => h (e ▸ List.mem_cons_self c t)
    rw [List.cons_append, splitOnChar, if_neg hc, ih fun m => h (List.mem_cons_of_mem c m)]
    rfl

lemma mem_splitOnChar_no_sep (sep : Char) (s part : Str)
    (h : part ∈ splitOnChar sep s) : sep ∉ part := by
  induction s generalizing part with
  | nil =>
    simp [splitOnChar] at h
    subst h; simp
  | cons c rest ih =>
    by_cases hc : c = sep
    · rw [splitOnChar, if_pos hc] at h
      rcases List.mem_cons.mp h with rfl | h2
      · simp
      · exact ih part h2
    · rw [splitOnChar, if_neg hc] at h
      cases hs : splitOnChar sep rest with
      | nil => exact absurd hs (splitOnChar_ne_nil _ _)
      | cons a b =>
        rw [hs] at h
        simp only [consHead] at h
        rcases List.mem_cons.mp h with rfl | h2
        · intro hmem
          rcases List.mem_cons.mp hmem with rfl | h3
          · exact hc rfl
          · exact ih a (hs ▸ List.mem_cons_self a b) h3
        · exact ih part (hs ▸ List.mem_cons_of_mem a h2)

lemma exists_part_of_mem (sep : Char) (s : Str) (x : Char) (hx : x ∈ s) (hne : x ≠ sep) :
    ∃ part ∈ splitOnChar sep s, x ∈ part := by
  induction s with
  | nil => simp at hx
  | cons c rest ih =>
    by_cases hc : c = sep
    · rcases List.mem_cons.mp hx with rfl | hx2
      · exact absurd hc hne
      · obtain ⟨p, hp, hxp⟩ := ih hx2
        exact ⟨p, by rw [splitOnChar, if_pos hc]; exact List.mem_cons_of_mem _ hp, hxp⟩
    · cases hs : splitOnChar sep rest with
      | nil => exact absurd hs (splitOnChar_ne_nil _ _)
      | cons a b =>
        rcases List.mem_cons.mp hx with rfl | hx2
        · exact ⟨x :: a, by rw [splitOnChar, if_neg hc, hs]; simp [consHead], by simp⟩
        · obtain ⟨p, hp, hxp⟩ := ih hx2
          rw [hs] at hp
          rcases List.mem_cons.mp hp with rfl | hp2
          · exact ⟨c :: p, by rw [splitOnChar, if_neg hc, hs]; simp [consHead], by simp [hxp]⟩
          · exact ⟨p, by rw [splitOnChar, if_neg hc, hs]; simp [consHead]; right; exact hp2, hxp⟩

lemma joinWith_cons_cons (sep x y : Str) (t : List Str) :
    joinWith sep (x :: y :: t) = x ++ sep ++ joinWith sep (y :: t) := rfl

lemma splitOnChar_joinWith (sep : Char) (ls : List Str) (hne : ls ≠ [])
    (h : ∀ l ∈ ls, sep ∉ l) : splitOnChar sep (joinWith [sep] ls) = ls := by
  induction ls with
  | nil => exact absurd rfl hne
  | cons x t ih =>
    cases t with
    | nil => exact splitOnChar_no_sep sep x (h x (List.mem_cons_self x []))
    | cons y t2 =>
      rw [joinWith_cons_cons,
        show x ++ [sep] ++ joinWith [sep] (y :: t2) = x ++ sep :: joinWith [sep] (y :: t2) by simp,
        splitOnChar_append_cons sep x _ (h x (List.mem_cons_self x _)),
        ih (by simp) fun l hl => h l (List.mem_cons_of_mem x hl)]

lemma mem_joinWith (sep : Str) (ls : List Str) (l : Str) (x : Char)
    (hl : l ∈ ls) (hx : x ∈ l) : x ∈ joinWith sep ls := by
  induction ls with
  | nil => simp at hl
  | cons a t ih =>
    cases t with
    | nil =>
      rcases List.mem_cons.mp hl with rfl | h2
      · simpa [joinWith] using hx
      · simp at h2
    | cons b t2 =>
      rw [joinWith_cons_cons]
      rcases List.mem_cons.mp hl with rfl | h2
      · simp [hx]
      · simp [ih h2]

lemma mem_of_mem_joinWith (sep : Str) (ls : List Str) (x : Char)
    (hx : x ∈ joinWith sep ls) : x ∈ sep ∨ ∃ l ∈ ls, x ∈ l := by
  induction ls with
  | nil => simp [joinWith] at hx
  | cons a t ih =>
    cases t with
    | nil =>
      right
      exact ⟨a, List.mem_cons_self a [], by simpa [joinWith] using hx⟩
    | cons b t2 =>
      rw [joinWith_cons_cons] at hx
      simp only [List.mem_append] at hx
      rcases hx with (hx | hx) | hx
      · exact Or.inr ⟨a, List.mem_cons_self a _, hx⟩
      · exact Or.inl hx
      · rcases ih hx with h | ⟨l, hl, hxl⟩
        · exact Or.inl h
        · exact Or.inr ⟨l, List.mem_cons_of_mem a hl, hxl⟩

lemma getD_range_map {α : Type} (l : List α) (d : α) :
    (List.range l.length).map (fun i => l.getD i d) = l := by
  induction l with
  | nil => rfl
  | cons a t ih =>
    rw [List.length_cons, List.range_succ_eq_map, List.map_cons, List.map_map]
    have hc : ((fun i => (a :: t).getD i d) ∘ Nat.succ) = fun i => t.getD i d := by
      funext i
      simp [List.getD_cons_succ]
    rw [hc, ih, List.getD_cons_zero]

/-! ### Escaping, sentinel protection and restoration -/

/-- The image of a cell under escape-then-protect: every literal pipe of the
cell becomes the sentinel; all other characters are untouched. -/
def escP : Str → Str
  | [] => []
  | ch :: r => (if ch = '|' then PIPE_PLACEHOLDER else [ch]) ++ escP r

lemma esc_no_pipe (c : Str) (h : '|' ∉ c) : escapePipeInCell c = c := by
  induction c with
  | nil => rfl
  | cons ch r ih =>
    have hch : ¬(ch = '|') := fun e => h (e ▸ List.mem_cons_self ch r)
    rw [escapePipeInCell, if_neg hch, ih fun m => h (List.mem_cons_of_mem ch m)]

lemma mem_esc (x : Char) (c : Str) (h : x ∈ escapePipeInCell c) : x ∈ c ∨ x = '\\' := by
  induction c with
  | nil => simp [escapePipeInCell] at h
  | cons ch r ih =>
    by_cases hch : ch = '|'
    · rw [escapePipeInCell, if_pos hch] at h
      rcases List.mem_cons.mp h with rfl | h2
      · exact Or.inr rfl
      · rcases List.mem_cons.mp h2 with rfl | h3
        · exact Or.inl (hch ▸ List.mem_cons_self ch r)
        · rcases ih h3 with h4 | h4
          · exact Or.inl (List.mem_cons_of_mem ch h4)
          · exact Or.inr h4
    · rw [escapePipeInCell, if_neg hch] at h
      rcases List.mem_cons.mp h with rfl | h2
      · exact Or.inl (List.mem_cons_self x r)
      · rcases ih h2 with h4 | h4
        · exact Or.inl (List.mem_cons_of_mem ch h4)
        · exact Or.inr h4

lemma bs_mem_esc (c : Str) (h : '|' ∈ c) : '\\' ∈ escapePipeInCell c := by
  induction c with
  | nil => simp at h
  | cons ch r ih =>
    by_cases hch : ch = '|'
    · rw [escapePipeInCell, if_pos hch]; simp
    · rw [escapePipeInCell, if_neg hch]
      rcases List.mem_cons.mp h with rfl | h2
      · exact absurd rfl hch
      · exact List.mem_cons_of_mem ch (ih h2)

lemma escP_no_pipe (c : Str) : '|' ∉ escP c := by
  induction c with
  | nil => simp [escP]
  | cons ch r ih =>
    rw [escP]
    intro hmem
    rcases List.mem_append.mp hmem with h | h
    · by_cases hch : ch = '|'
      · rw [if_pos hch] at h
        revert h
        decide
      · rw [if_neg hch] at h
        rcases List.mem_cons.mp h with e | e
        · exact hch e.symm
        · simp at e
    · exact ih h

lemma mem_escP (x : Char) (c : Str) (h : x ∈ escP c) : x ∈ c ∨ x ∈ PIPE_PLACEHOLDER := by
  induction c with
  | nil => simp [escP] at h
  | cons ch r ih =>
    rw [escP] at h
    rcases List.mem_append.mp h with h2 | h2
    · by_cases hch : ch = '|'
      · rw [if_pos hch] at h2; exact Or.inr h2
      · rw [if_neg hch] at h2
        rcases List.mem_cons.mp h2 with rfl | h3
        · exact Or.inl (List.mem_cons_self x r)
        · simp at h3
    · rcases ih h2 with h3 | h3
      · exact Or.inl (List.mem_cons_of_mem ch h3)
      · exact Or.inr h3

lemma esc_eq_nil_iff (c : Str) : escapePipeInCell c = [] ↔ c = [] := by
  cases c with
  | nil => simp [escapePipeInCell]
  | cons ch r =>
    constructor
    · intro h
      by_cases hch : ch = '|' <;> simp [escapePipeInCell, hch] at h
    · intro h; cases h

lemma esc_append_head_ne_pipe (c t : Str) (h : t.head? ≠ some '|') :
    (escapePipeInCell c ++ t).head? ≠ some '|' := by
  cases c with
  | nil => simpa [escapePipeInCell] using h
  | cons ch r =>
    by_cases hch : ch = '|'
    · rw [escapePipeInCell, if_pos hch]
      simp
    · rw [escapePipeInCell, if_neg hch]
      simpa using hch

lemma protect_cons_ne (c : Char) (t : Str) (h : c ≠ '\\') :
    protectEscapedPipes (c :: t) = c :: protectEscapedPipes t := by
  cases t with
  | nil => rfl
  | cons c2 r =>
    rw [protectEscapedPipes, if_neg (by simp [h])]

lemma protect_safe_append (p z : Str) (hp : ∀ x ∈ p, x ≠ '\\') :
    protectEscapedPipes (p ++ z) = p ++ protectEscapedPipes z := by
  induction p with
  | nil => rfl
  | cons c t ih =>
    rw [List.cons_append, protect_cons_ne c _ (hp c (List.mem_cons_self c t)),
      ih fun x hx => hp x (List.mem_cons_of_mem c hx)]
    rfl

lemma protect_all_ne_bs (s : Str) (hs : ∀ x ∈ s, x ≠ '\\') :
    protectEscapedPipes s = s := by
  have h0 : protectEscapedPipes ([] : Str) = [] := rfl
  have := protect_safe_append s [] hs
  simpa [h0] using this

lemma protect_esc_append (c t : Str) (h : t.head? ≠ some '|') :
    protectEscapedPipes (escapePipeInCell c ++ t) = escP c ++ protectEscapedPipes t := by
  induction c with
  | nil => simp [escapePipeInCell, escP]
  | cons ch r ih =>
    by_cases hp : ch = '|'
    · subst hp
      rw [escapePipeInCell, if_pos rfl]
      rw [show ('\\' :: '|' :: escapePipeInCell r ++ t : Str) =
        '\\' :: '|' :: (escapePipeInCell r ++ t) by simp]
      rw [protectEscapedPipes, if_pos (by simp)]
      rw [ih, escP, if_pos rfl]
      simp
    · by_cases hb : ch = '\\'
      · subst hb
        rw [escapePipeInCell, if_neg hp]
        cases he : escapePipeInCell r ++ t with
        | nil =>
          have hr : r = [] := by
            rcases List.append_eq_nil.mp he with ⟨he1, _⟩
            exact (esc_eq_nil_iff r).mp he1
          have ht : t = [] := (List.append_eq_nil.mp he).2
          subst hr; subst ht
          rfl
        | cons c2 z =>
          have hc2 : ¬(c2 = '|') := by
            have h2 := esc_append_head_ne_pipe r t h
            rw [he] at h2
            simpa using h2
          rw [show ('\\' :: escapePipeInCell r ++ t : Str) =
            '\\' :: (escapePipeInCell r ++ t) by simp]
          rw [he, protectEscapedPipes, if_neg (by simp [hc2]), ← he, ih]
          rw [escP, if_neg hp]
          rfl
      · rw [escapePipeInCell, if_neg hp, List.cons_append, protect_cons_ne ch _ hb, ih]
        rw [escP, if_neg hp]
        rfl

lemma isPrefixOf_self_append (p t : Str) : p.isPrefixOf (p ++ t) = true := by
  induction p with
  | nil => simp [List.isPrefixOf]
  | cons a q ih => simp [List.isPrefixOf, ih]

lemma restoreAux_congr (f1 : Nat) : ∀ (f2 : Nat) (s : Str),
    s.length ≤ f1 → s.length ≤ f2 → restoreAux f1 s = restoreAux f2 s := by
  induction f1 with
  | zero =>
    intro f2 s h1 _
    have : s = [] := List.eq_nil_of_length_eq_zero (Nat.le_zero.mp h1)
    subst this
    cases f2 <;> rfl
  | succ g ih =>
    intro f2 s h1 h2
    cases s with
    | nil => cases f2 <;> rfl
    | cons c rest =>
      cases f2 with
      | zero => simp at h2
      | succ g2 =>
        simp only [restoreAux]
        by_cases hpre : PIPE_PLACEHOLDER.isPrefixOf (c :: rest)
        · rw [if_pos hpre, if_pos hpre]
          have hd : (rest.drop (PIPE_PLACEHOLDER.length - 1)).length ≤ rest.length := by
            rw [List.length_drop]; omega
          have hlen : rest.length + 1 ≤ g + 1 := by simpa using h1
          have hlen2 : rest.length + 1 ≤ g2 + 1 := by simpa using h2
          rw [ih g2 _ (by omega) (by omega)]
        · rw [if_neg hpre, if_neg hpre]
          have hlen : rest.length + 1 ≤ g + 1 := by simpa using h1
          have hlen2 : rest.length + 1 ≤ g2 + 1 := by simpa using h2
          rw [ih g2 rest (by omega) (by omega)]

lemma restore_P_append (t : Str) :
    restorePlaceholder (PIPE_PLACEHOLDER ++ t) = '|' :: restorePlaceholder t := by
  unfold restorePlaceholder
  have hlen : (PIPE_PLACEHOLDER ++ t).length = t.length + 5 + 1 := by
    simp [PIPE_PLACEHOLDER]
  rw [hlen]
  rw [show (PIPE_PLACEHOLDER ++ t : Str) =
    '\x00' :: ('P' :: 'I' :: 'P' :: 'E' :: '\x00' :: t) by rfl]
  simp only [restoreAux]
  rw [if_pos (by exact isPrefixOf_self_append PIPE_PLACEHOLDER t)]
  rw [show (('P' :: 'I' :: 'P' :: 'E' :: '\x00' :: t : Str).drop
    (PIPE_PLACEHOLDER.length - 1)) = t by rfl]
  rw [restoreAux_congr (t.length + 5) t.length t (by omega) (by omega)]

lemma restore_cons_ne (c : Char) (t : Str) (h : c ≠ '\x00') :
    restorePlaceholder (c :: t) = c :: restorePlaceholder t := by
  unfold restorePlaceholder
  rw [show (c :: t : Str).length = t.length + 1 by simp]
  simp only [restoreAux]
  rw [if_neg]
  intro hpre
  rw [show PIPE_PLACEHOLDER = '\x00' :: ['P', 'I', 'P', 'E', '\x00'] by rfl] at hpre
  simp only [List.isPrefixOf, Bool.and_eq_true, beq_iff_eq] at hpre
  exact h hpre.1.symm

lemma restore_all_ne_nul (s : Str) (h : ∀ x ∈ s, x ≠ '\x00') :
    restorePlaceholder s = s := by
  induction s with
  | nil => rfl
  | cons c t ih =>
    rw [restore_cons_ne c t (h c (List.mem_cons_self c t)),
      ih fun x hx => h x (List.mem_cons_of_mem c hx)]

lemma restore_escP_append (c w : Str) (h : '\x00' ∉ c) :
    restorePlaceholder (escP c ++ w) = c ++ restorePlaceholder w := by
  induction c with
  | nil => simp [escP]
  | cons ch r ih =>
    by_cases hp : ch = '|'
    · subst hp
      rw [escP, if_pos rfl, List.append_assoc, restore_P_append,
        ih fun m => h (List.mem_cons_of_mem _ m)]
      rfl
    · have hch : ch ≠ '\x00' := fun e => h (e ▸ List.mem_cons_self ch r)
      rw [escP, if_neg hp]
      rw [show ([ch] ++ escP r ++ w : Str) = ch :: (escP r ++ w) by simp]
      rw [restore_cons_ne ch _ hch, ih fun m => h (List.mem_cons_of_mem _ m)]
      rfl

/-! ### Parsing an emitted row line recovers its cells -/

/-- A rendered cell piece: leading space, escaped cell, space padding,
trailing space. -/
def wrapCell (cp : Str × Str) : Str := ' ' :: (escapePipeInCell cp.1 ++ cp.2 ++ [' '])

/-- The rendered cell piece after sentinel protection. -/
def wrapCellP (cp : Str × Str) : Str := ' ' :: (escP cp.1 ++ cp.2 ++ [' '])

lemma space_append_head (p z : Str) (hp : ∀ x ∈ p, x = ' ') (hz : z.head? = some ' ') :
    (p ++ z).head? ≠ some '|' := by
  cases p with
  | nil => simp only [List.nil_append, hz]; decide
  | cons a b =>
    have ha := hp a (List.mem_cons_self a b)
    simp [ha]

lemma protect_wrapCell (cp : Str × Str) (hp : ∀ x ∈ cp.2, x = ' ') (z : Str)
    (hz : z = [] ∨ z.head? = some '|') :
    protectEscapedPipes (wrapCell cp ++ z) = wrapCellP cp ++ protectEscapedPipes z := by
  unfold wrapCell wrapCellP
  rw [List.cons_append, protect_cons_ne ' ' _ (by decide)]
  rw [show escapePipeInCell cp.1 ++ cp.2 ++ [' '] ++ z =
    escapePipeInCell cp.1 ++ (cp.2 ++ ([' '] ++ z)) by simp]
  rw [protect_esc_append _ _ (space_append_head cp.2 ([' '] ++ z) hp (by simp))]
  rw [protect_safe_append cp.2 _ (fun x hx => by rw [hp x hx]; decide)]
  rcases hz with rfl | hz
  · simp only [List.append_nil]
    rw [protect_all_ne_bs [' '] (by decide)]
    simp [show protectEscapedPipes ([] : Str) = [] from rfl]
  · cases z with
    | nil => simp at hz
    | cons c zr =>
      have hc : c = '|' := by simpa using hz
      subst hc
      rw [show ([' '] ++ '|' :: zr : Str) = ' ' :: '|' :: zr by rfl]
      rw [protect_cons_ne ' ' _ (by decide), protect_cons_ne '|' _ (by decide)]
      simp

lemma protect_join (pieces : List (Str × Str))
    (hp : ∀ cp ∈ pieces, ∀ x ∈ cp.2, x = ' ') :
    protectEscapedPipes (joinWith ['|'] (pieces.map wrapCell)) =
      joinWith ['|'] (pieces.map wrapCellP) := by
  induction pieces with
  | nil => rfl
  | cons cp t ih =>
    cases t with
    | nil =>
      show protectEscapedPipes (wrapCell cp) = wrapCellP cp
      have := protect_wrapCell cp (hp cp (List.mem_cons_self cp [])) [] (Or.inl rfl)
      simpa [show protectEscapedPipes ([] : Str) = [] from rfl] using this
    | cons cp2 t2 =>
      simp only [List.map_cons]
      rw [joinWith_cons_cons, joinWith_cons_cons]
      rw [List.append_assoc]
      rw [protect_wrapCell cp (hp cp (List.mem_cons_self cp _)) _
        (Or.inr (by simp [joinWith_cons_cons]))]
      rw [show (['|'] ++ joinWith ['|'] (wrapCell cp2 :: t2.map wrapCell) : Str) =
        '|' :: joinWith ['|'] (wrapCell cp2 :: t2.map wrapCell) by simp]
      rw [protect_cons_ne '|' _ (by decide)]
      have ihh := ih fun q hq => hp q (List.mem_cons_of_mem cp hq)
      simp only [List.map_cons] at ihh
      rw [ihh]
      simp

lemma no_pipe_wrapCellP (cp : Str × Str) (hp : ∀ x ∈ cp.2, x = ' ') :
    '|' ∉ wrapCellP cp := by
  unfold wrapCellP
  intro h
  rcases List.mem_cons.mp h with e | h2
  · exact absurd e (by decide)
  · rcases List.mem_append.mp h2 with h3 | h3
    · rcases List.mem_append.mp h3 with h4 | h4
      · exact escP_no_pipe cp.1 h4
      · have := hp '|' h4
        exact absurd this (by decide)
    · simp at h3

lemma restore_trim_wrapCellP (c p : Str) (hc : trim c = c) (hnul : '\x00' ∉ c)
    (hp : ∀ x ∈ p, x = ' ') :
    trim (restorePlaceholder (wrapCellP (c, p))) = c := by
  unfold wrapCellP
  rw [restore_cons_ne ' ' _ (by decide)]
  rw [show (escP (c, p).1 ++ (c, p).2 ++ [' '] : Str) = escP c ++ (p ++ [' ']) by simp]
  rw [restore_escP_append c _ hnul]
  rw [restore_all_ne_nul (p ++ [' '])
    (fun x hx => by
      rcases List.mem_append.mp hx with h1 | h1
      · rw [hp x h1]; decide
      · have : x = ' ' := by simpa using h1
        rw [this]; decide)]
  rw [show (' ' :: (c ++ (p ++ [' '])) : Str) = [' '] ++ c ++ (p ++ [' ']) by simp]
  refine trim_ws_sandwich [' '] (p ++ [' ']) c (by decide) ?_ hc
  intro x hx
  rcases List.mem_append.mp hx with h1 | h1
  · rw [hp x h1]; decide
  · have : x = ' ' := by simpa using h1
    rw [this]; decide

theorem parse_wrapped_pieces (pieces : List (Str × Str)) (hne : pieces ≠ [])
    (hc : ∀ cp ∈ pieces, trim cp.1 = cp.1 ∧ '\x00' ∉ cp.1)
    (hp : ∀ cp ∈ pieces, ∀ x ∈ cp.2, x = ' ') :
    parseTableRow ('|' :: joinWith ['|'] (pieces.map wrapCell) ++ ['|']) =
      some (pieces.map Prod.fst) := by
  simp only [parseTableRow]
  rw [trim_pipe_wrapped]
  rw [if_pos (by
    rw [Bool.and_eq_true]
    refine ⟨rfl, ?_⟩
    show strEndsWith _ '|' = true
    unfold strEndsWith
    rw [show ('|' :: joinWith ['|'] (pieces.map wrapCell) ++ ['|'] : Str) =
      ('|' :: joinWith ['|'] (pieces.map wrapCell)) ++ ['|'] by simp]
    rw [List.getLast?_concat]
    simp)]
  rw [show (('|' :: joinWith ['|'] (pieces.map wrapCell) ++ ['|'] : Str).drop 1) =
    joinWith ['|'] (pieces.map wrapCell) ++ ['|'] by simp]
  rw [show ((joinWith ['|'] (pieces.map wrapCell) ++ ['|'] : Str).dropLast) =
    joinWith ['|'] (pieces.map wrapCell) by rw [List.dropLast_concat]]
  rw [protect_join pieces hp]
  rw [splitOnChar_joinWith '|' (pieces.map wrapCellP)
    (by simpa using hne)
    (by
      intro l hl
      obtain ⟨cp, hcp, rfl⟩ := List.mem_map.mp hl
      exact no_pipe_wrapCellP cp (hp cp hcp))]
  rw [List.map_map]
  congr 1
  refine List.map_congr_left ?_
  intro cp hcp
  show trim (restorePlaceholder (wrapCellP cp)) = cp.1
  have h1 := (hc cp hcp).1
  have h2 := (hc cp hcp).2
  have := restore_trim_wrapCellP cp.1 cp.2 h1 h2 (hp cp hcp)
  simpa using this

/-! ### Shapes of emitted lines -/

/-- The row line emitted by `tableToMarkdown` for `row` relative to grid
`data` (whose column count and widths drive the rendering). -/
def renderLine (data : List Row) (row : Row) : Str :=
  ['|', ' '] ++
    joinWith [' ', '|', ' ']
      ((List.range (maxRowLen data)).map fun col =>
        padEnd (escapePipeInCell (row.getD col [])) (columnWidth data col)) ++
    [' ', '|']

/-- The separator line emitted by `tableToMarkdown`. -/
def sepLine (data : List Row) : Str :=
  ['|', ' '] ++
    joinWith [' ', '|', ' ']
      ((List.range (maxRowLen data)).map fun col =>
        List.replicate (columnWidth data col) '-') ++
    [' ', '|']

lemma getD_map_range (n : Nat) (f : Nat → Nat) (col : Nat) (h : col < n) :
    ((List.range n).map f).getD col 0 = f col := by
  rw [List.getD_eq_getElem?_getD, List.getElem?_map, List.getElem?_range h]
  rfl

lemma map_range_getD (n : Nat) (f : Nat → Nat) :
    (List.range n).map (fun col => ((List.range n).map f).getD col 0) =
      (List.range n).map f := by
  refine List.map_congr_left ?_
  intro col hcol
  have hlt : col < n := List.mem_range.mp hcol
  rw [List.getD_eq_getElem?_getD, List.getElem?_map, List.getElem?_range hlt]
  rfl

lemma tableToMarkdown_eq (first : Row) (rest : List Row) :
    tableToMarkdown (first :: rest) =
      joinWith ['\n']
        (renderLine (first :: rest) first :: sepLine (first :: rest) ::
          rest.map (renderLine (first :: rest))) := by
  have hcells : ∀ row : Row,
      (List.range (maxRowLen (first :: rest))).map (fun col =>
        padEnd (escapePipeInCell (row.getD col []))
          (((List.range (maxRowLen (first :: rest))).map
            (columnWidth (first :: rest))).getD col 0)) =
      (List.range (maxRowLen (first :: rest))).map (fun col =>
        padEnd (escapePipeInCell (row.getD col [])) (columnWidth (first :: rest) col)) := by
    intro row
    refine List.map_congr_left ?_
    intro col hcol
    have hlt : col < maxRowLen (first :: rest) := List.mem_range.mp hcol
    rw [getD_map_range _ _ col hlt]
  have hsep : List.map (fun w => List.replicate w '-')
      ((List.range (maxRowLen (first :: rest))).map (columnWidth (first :: rest))) =
      (List.range (maxRowLen (first :: rest))).map
        (fun col => List.replicate (columnWidth (first :: rest) col) '-') := by
    rw [List.map_map]
    rfl
  simp only [tableToMarkdown, renderLine, sepLine, hcells, hsep]
  rfl

lemma wrapped_shape (xs : List Str) (hne : xs ≠ []) :
    ['|', ' '] ++ joinWith [' ', '|', ' '] xs ++ [' ', '|'] =
      '|' :: joinWith ['|'] (xs.map fun x => ' ' :: (x ++ [' '])) ++ ['|'] := by
  induction xs with
  | nil => exact absurd rfl hne
  | cons x t ih =>
    cases t with
    | nil => simp [joinWith]
    | cons y t2 =>
      have ih2 := ih (by simp)
      have tail_eq : (' ' :: joinWith [' ', '|', ' '] (y :: t2) ++ [' ', '|'] : Str) =
          joinWith ['|'] ((y :: t2).map fun x => ' ' :: (x ++ [' '])) ++ ['|'] := by
        have h3 := congrArg List.tail ih2
        simpa using h3
      have expand : (['|', ' '] ++ (x ++ [' ', '|', ' '] ++ joinWith [' ', '|', ' '] (y :: t2)) ++ [' ', '|'] : Str) =
          '|' :: ((' ' :: (x ++ [' '])) ++ '|' :: (' ' :: joinWith [' ', '|', ' '] (y :: t2) ++ [' ', '|'])) := by
        simp
      rw [joinWith_cons_cons, expand, tail_eq]
      simp only [List.map_cons, joinWith_cons_cons]
      simp

/-! ### Properties of emitted lines -/

lemma isTableRow_wrapped (xs : Str) : isTableRow ('|' :: xs ++ ['|']) = true := by
  simp only [isTableRow]
  rw [trim_pipe_wrapped, Bool.and_eq_true]
  refine ⟨rfl, ?_⟩
  unfold strEndsWith
  rw [show ('|' :: xs ++ ['|'] : Str) = ('|' :: xs) ++ ['|'] by simp, List.getLast?_concat]
  simp

lemma isSeparatorRow_wrapped_iff (inner : Str) :
    isSeparatorRow ('|' :: inner ++ ['|']) =
      (splitOnChar '|' inner).all (fun cell =>
        !cell.isEmpty && cell.all (fun c => isWsChar c || c = ':' || c = '-') &&
          cell.contains '-') := by
  simp only [isSeparatorRow]
  rw [trim_pipe_wrapped]
  rw [if_pos (by
    rw [Bool.and_eq_true]
    refine ⟨rfl, ?_⟩
    unfold strEndsWith
    rw [show ('|' :: inner ++ ['|'] : Str) = ('|' :: inner) ++ ['|'] by simp,
      List.getLast?_concat]
    simp)]
  rw [show (('|' :: inner ++ ['|'] : Str).drop 1) = inner ++ ['|'] by simp]
  rw [show ((inner ++ ['|'] : Str).dropLast) = inner by rw [List.dropLast_concat]]

lemma sep_char_class (inner : Str) (x : Char) (hmem : x ∈ inner) (hx : x ≠ '|')
    (hsep : isSeparatorRow ('|' :: inner ++ ['|']) = true) :
    (isWsChar x || x = ':' || x = '-') = true := by
  rw [isSeparatorRow_wrapped_iff] at hsep
  obtain ⟨part, hpart, hxp⟩ := exists_part_of_mem '|' inner x hmem hx
  have hall := List.all_eq_true.mp hsep part hpart
  simp only [Bool.and_eq_true] at hall
  exact List.all_eq_true.mp hall.1.2 x hxp

lemma getD_mem_or_nil (r : Row) (col : Nat) :
    r.getD col [] = [] ∨ r.getD col [] ∈ r := by
  by_cases h : col < r.length
  · right
    rw [List.getD_eq_getElem r [] h]
    exact List.getElem_mem h
  · left
    exact List.getD_eq_default r [] (Nat.le_of_not_lt h)

lemma no_nl_renderLine (data : List Row) (r : Row) (h : ∀ c ∈ r, '\n' ∉ c) :
    '\n' ∉ renderLine data r := by
  intro hmem
  unfold renderLine at hmem
  rcases List.mem_append.mp hmem with h1 | h1
  · rcases List.mem_append.mp h1 with h2 | h2
    · simp at h2
    · rcases mem_of_mem_joinWith _ _ _ h2 with h3 | ⟨cell, hcell, h3⟩
      · simp at h3
      · obtain ⟨col, _, rfl⟩ := List.mem_map.mp hcell
        unfold padEnd at h3
        rcases List.mem_append.mp h3 with h4 | h4
        · rcases mem_esc _ _ h4 with h5 | h5
          · rcases getD_mem_or_nil r col with h6 | h6
            · rw [h6] at h5; simp at h5
            · exact h (r.getD col []) h6 h5
          · simp at h5
        · have := List.eq_of_mem_replicate h4
          simp at this
  · simp at h1

lemma no_nl_sepLine (data : List Row) : '\n' ∉ sepLine data := by
  intro hmem
  unfold sepLine at hmem
  rcases List.mem_append.mp hmem with h1 | h1
  · rcases List.mem_append.mp h1 with h2 | h2
    · simp at h2
    · rcases mem_of_mem_joinWith _ _ _ h2 with h3 | ⟨cell, hcell, h3⟩
      · simp at h3
      · obtain ⟨col, _, rfl⟩ := List.mem_map.mp hcell
        have := List.eq_of_mem_replicate h3
        simp at this
  · simp at h1

/-! ### Column widths -/

/-- The column width as the specification words it: the maximum of 3 and the
largest escaped cell length present in the column. -/
def specColumnWidth (data : List Row) (col : Nat) : Nat :=
  max 3
    (data.foldl
      (fun m row =>
        if col < row.length then max m (escapePipeInCell (row.getD col [])).length
        else m)
      0)

lemma foldl_cond_max (d : List Row) (k : Row → Nat) (col : Nat) (a : Nat) :
    d.foldl (fun m row => if col < row.length then max m (k row) else m) a =
      max a (d.foldl (fun m row => if col < row.length then max m (k row) else m) 0) := by
  induction d generalizing a with
  | nil => simp
  | cons r t ih =>
    simp only [List.foldl_cons]
    rw [ih, ih (if col < r.length then max 0 (k r) else 0)]
    by_cases hp : col < r.length
    · simp [hp]
      omega
    · simp [hp]

lemma columnWidth_eq_spec (data : List Row) (col : Nat) :
    columnWidth data col = specColumnWidth data col := by
  unfold columnWidth specColumnWidth
  exact foldl_cond_max data _ col 3

lemma columnWidth_ge_3 (data : List Row) (col : Nat) : 3 ≤ columnWidth data col := by
  rw [columnWidth_eq_spec]
  exact Nat.le_max_left 3 _

lemma maxRowLen_uniform (first : Row) (rest : List Row)
    (h : ∀ r ∈ first :: rest, r.length = first.length) :
    maxRowLen (first :: rest) = first.length := by
  unfold maxRowLen
  suffices h2 : ∀ (d : List Row) (a : Nat), (∀ r ∈ d, r.length = first.length) →
      d.foldl (fun m r => max m r.length) a = if d = [] then a else max a first.length by
    have h3 := h2 (first :: rest) 0 h
    simp only [if_neg (by simp : ¬(first :: rest = []))] at h3
    simpa using h3
  intro d
  induction d with
  | nil => intro a _; simp
  | cons r t ih =>
    intro a hall
    simp only [List.foldl_cons]
    rw [ih _ fun q hq => hall q (List.mem_cons_of_mem r hq)]
    have hr := hall r (List.mem_cons_self r t)
    by_cases ht : t = [] <;> simp [ht, hr]

/-! ### Small list helpers -/

lemma takeWhile_all_eq (p : Str → Bool) (l : List Str) (h : ∀ x ∈ l, p x = true) :
    l.takeWhile p = l := by
  induction l with
  | nil => rfl
  | cons a t ih =>
    rw [List.takeWhile_cons, if_pos (h a (List.mem_cons_self a t)),
      ih fun x hx => h x (List.mem_cons_of_mem a hx)]

lemma dropWhile_all_eq_nil (p : Str → Bool) (l : List Str) (h : ∀ x ∈ l, p x = true) :
    l.dropWhile p = [] := by
  induction l with
  | nil => rfl
  | cons a t ih =>
    rw [List.dropWhile_cons, if_pos (h a (List.mem_cons_self a t))]
    exact ih fun x hx => h x (List.mem_cons_of_mem a hx)

lemma filterMap_length_of_some (f : Str → Option Row) (l : List Str)
    (h : ∀ x ∈ l, ∃ y, f x = some y) : (l.filterMap f).length = l.length := by
  induction l with
  | nil => rfl
  | cons a t ih =>
    obtain ⟨y, hy⟩ := h a (List.mem_cons_self a t)
    rw [List.filterMap_cons, hy]
    simp [ih fun x hx => h x (List.mem_cons_of_mem a hx)]

lemma filterMap_map_eq_self (rs : List Row) (g : Row → Str) (f : Str → Option Row)
    (h : ∀ r ∈ rs, f (g r) = some r) : (rs.map g).filterMap f = rs := by
  induction rs with
  | nil => rfl
  | cons r t ih =>
    rw [List.map_cons, List.filterMap_cons, h r (List.mem_cons_self r t)]
    rw [ih fun q hq => h q (List.mem_cons_of_mem r hq)]

/-! ### The emitted separator is a separator row; emitted data rows are not -/

lemma sepLine_wrapped (data : List Row) (hpos : 0 < maxRowLen data) :
    sepLine data =
      '|' :: joinWith ['|']
        (((List.range (maxRowLen data)).map fun col =>
          List.replicate (columnWidth data col) '-').map fun x => ' ' :: (x ++ [' '])) ++
      ['|'] := by
  unfold sepLine
  exact wrapped_shape _ (by simp [List.range_eq_nil]; omega)

lemma isSeparatorRow_sepLine (data : List Row) (hpos : 0 < maxRowLen data) :
    isSeparatorRow (sepLine data) = true := by
  rw [sepLine_wrapped data hpos, isSeparatorRow_wrapped_iff]
  rw [splitOnChar_joinWith '|' _
    (by simp [List.range_eq_nil]; omega)
    (by
      intro l hl
      obtain ⟨x, hx, rfl⟩ := List.mem_map.mp hl
      obtain ⟨col, _, rfl⟩ := List.mem_map.mp hx
      intro hmem
      rcases List.mem_cons.mp hmem with e | h2
      · exact absurd e (by decide)
      · rcases List.mem_append.mp h2 with h3 | h3
        · have := List.eq_of_mem_replicate h3
          exact absurd this (by decide)
        · simp at h3)]
  rw [List.all_eq_true]
  intro part hpart
  rw [List.map_map] at hpart
  obtain ⟨col, _, rfl⟩ := List.mem_map.mp hpart
  simp only [Function.comp]
  rw [Bool.and_eq_true, Bool.and_eq_true]
  refine ⟨⟨by simp, ?_⟩, ?_⟩
  · rw [List.all_eq_true]
    intro x hx
    rcases List.mem_cons.mp hx with rfl | h2
    · decide
    · rcases List.mem_append.mp h2 with h3 | h3
      · rw [List.eq_of_mem_replicate h3]
        decide
      · have : x = ' ' := by simpa using h3
        rw [this]; decide
  · have h3 := columnWidth_ge_3 data col
    refine List.elem_eq_true_of_mem ?_
    refine List.mem_cons_of_mem _ (List.mem_append.mpr (Or.inl ?_))
    exact List.mem_replicate.mpr ⟨by omega, rfl⟩

lemma mem_inner_of_mem_cell (data : List Row) (r : Row) (col : Nat)
    (hcol : col < maxRowLen data) (x : Char)
    (hx : x ∈ escapePipeInCell (r.getD col [])) :
    x ∈ joinWith ['|']
      (((List.range (maxRowLen data)).map fun c =>
        padEnd (escapePipeInCell (r.getD c [])) (columnWidth data c)).map
        fun y => ' ' :: (y ++ [' '])) := by
  refine mem_joinWith _ _
    (' ' :: (padEnd (escapePipeInCell (r.getD col [])) (columnWidth data col) ++ [' '])) x ?_ ?_
  · exact List.mem_map.mpr ⟨_, List.mem_map.mpr ⟨col, List.mem_range.mpr hcol, rfl⟩, rfl⟩
  · refine List.mem_cons_of_mem _ (List.mem_append.mpr (Or.inl ?_))
    unfold padEnd
    exact List.mem_append.mpr (Or.inl hx)

lemma not_sep_of_bad_char (inner : Str) (x : Char) (hmem : x ∈ inner) (hx : x ≠ '|')
    (hbad : (isWsChar x || x = ':' || x = '-') = false) :
    isSeparatorRow ('|' :: inner ++ ['|']) = false := by
  cases hb : isSeparatorRow ('|' :: inner ++ ['|']) with
  | false => rfl
  | true =>
    exfalso
    have h2 := sep_char_class inner x hmem hx hb
    rw [hbad] at h2
    cases h2

lemma isSeparatorRow_renderLine_false (data : List Row) (r : Row)
    (hL : r.length = maxRowLen data) (hpos : 0 < maxRowLen data)
    (hns : ¬(∀ c ∈ r, (∀ x ∈ c, (isWsChar x || x = ':' || x = '-') = true) ∧ '-' ∈ c)) :
    isSeparatorRow (renderLine data r) = false := by
  have hshape : renderLine data r = '|' :: joinWith ['|']
      (((List.range (maxRowLen data)).map fun c =>
        padEnd (escapePipeInCell (r.getD c [])) (columnWidth data c)).map
        fun y => ' ' :: (y ++ [' '])) ++ ['|'] := by
    unfold renderLine
    exact wrapped_shape _ (by simp [List.range_eq_nil]; omega)
  by_cases hpipe : ∃ c ∈ r, '|' ∈ c
  · obtain ⟨c, hc, hp⟩ := hpipe
    obtain ⟨col, hcol, hceq⟩ : ∃ col, col < r.length ∧ r.getD col [] = c := by
      obtain ⟨col, hlt, he⟩ := List.mem_iff_getElem.mp hc
      exact ⟨col, hlt, by rw [List.getD_eq_getElem r [] hlt]; exact he⟩
    have hbs : '\\' ∈ escapePipeInCell (r.getD col []) := by
      rw [hceq]; exact bs_mem_esc c hp
    have hmem := mem_inner_of_mem_cell data r col (hL ▸ hcol) '\\' hbs
    rw [hshape]
    exact not_sep_of_bad_char _ '\\' hmem (by decide) (by decide)
  · push_neg at hpipe
    push_neg at hns
    obtain ⟨c, hc, hbad⟩ := hns
    obtain ⟨col, hcol, hceq⟩ : ∃ col, col < r.length ∧ r.getD col [] = c := by
      obtain ⟨col, hlt, he⟩ := List.mem_iff_getElem.mp hc
      exact ⟨col, hlt, by rw [List.getD_eq_getElem r [] hlt]; exact he⟩
    have hnopipe : ∀ piece ∈ ((List.range (maxRowLen data)).map fun cc =>
        padEnd (escapePipeInCell (r.getD cc [])) (columnWidth data cc)).map
        (fun y => ' ' :: (y ++ [' '])), '|' ∉ piece := by
      intro piece hpiece hmem2
      obtain ⟨y, hy, rfl⟩ := List.mem_map.mp hpiece
      obtain ⟨cc, _, rfl⟩ := List.mem_map.mp hy
      rcases List.mem_cons.mp hmem2 with e | h2
      · exact absurd e (by decide)
      · rcases List.mem_append.mp h2 with h3 | h3
        · unfold padEnd at h3
          rcases List.mem_append.mp h3 with h4 | h4
          · rcases getD_mem_or_nil r cc with h5 | h5
            · rw [h5] at h4; simp [escapePipeInCell] at h4
            · rw [esc_no_pipe _ (hpipe _ h5)] at h4
              exact hpipe _ h5 h4
          · have := List.eq_of_mem_replicate h4
            exact absurd this (by decide)
        · simp at h3
    by_cases hallc : ∀ x ∈ c, (isWsChar x || x = ':' || x = '-') = true
    · have hdash : '-' ∉ c := hbad hallc
      rw [hshape]
      cases hb : isSeparatorRow _ with
      | false => rfl
      | true =>
        exfalso
        rw [isSeparatorRow_wrapped_iff] at hb
        rw [splitOnChar_joinWith '|' _ (by simp [List.range_eq_nil]; omega) hnopipe] at hb
        have hpartmem : (' ' :: (padEnd (escapePipeInCell (r.getD col []))
            (columnWidth data col) ++ [' '])) ∈
            ((List.range (maxRowLen data)).map fun cc =>
              padEnd (escapePipeInCell (r.getD cc [])) (columnWidth data cc)).map
              (fun y => ' ' :: (y ++ [' '])) :=
          List.mem_map.mpr ⟨_, List.mem_map.mpr ⟨col, List.mem_range.mpr (hL ▸ hcol), rfl⟩, rfl⟩
        have hall := List.all_eq_true.mp hb _ hpartmem
        simp only [Bool.and_eq_true] at hall
        have hcont := hall.2
        have hdashmem := List.mem_of_elem_eq_true hcont
        rcases List.mem_cons.mp hdashmem with e | h2
        · exact absurd e (by decide)
        · rcases List.mem_append.mp h2 with h3 | h3
          · unfold padEnd at h3
            rcases List.mem_append.mp h3 with h4 | h4
            · rw [hceq, esc_no_pipe c (hpipe c hc)] at h4
              exact hdash h4
            · have := List.eq_of_mem_replicate h4
              exact absurd this (by decide)
          · simp at h3
    · push_neg at hallc
      obtain ⟨x, hxc, hxbad⟩ := hallc
      have hxpipe : x ≠ '|' := fun e => hpipe c hc (e ▸ hxc)
      have hxesc : x ∈ escapePipeInCell (r.getD col []) := by
        rw [hceq, esc_no_pipe c (hpipe c hc)]
        exact hxc
      have hmem := mem_inner_of_mem_cell data r col (hL ▸ hcol) x hxesc
      rw [hshape]
      refine not_sep_of_bad_char _ x hmem hxpipe ?_
      simpa using hxbad

lemma parse_renderLine (data : List Row) (row : Row)
    (hL : row.length = maxRowLen data) (hpos : 0 < maxRowLen data)
    (hclean : ∀ c ∈ row, trim c = c ∧ '\x00' ∉ c) :
    parseTableRow (renderLine data row) = some row := by
  have hshape : renderLine data row = '|' :: joinWith ['|']
      (((List.range (maxRowLen data)).map fun c =>
        padEnd (escapePipeInCell (row.getD c [])) (columnWidth data c)).map
        fun y => ' ' :: (y ++ [' '])) ++ ['|'] := by
    unfold renderLine
    exact wrapped_shape _ (by simp [List.range_eq_nil]; omega)
  rw [hshape]
  have hmap : (((List.range (maxRowLen data)).map fun c =>
      padEnd (escapePipeInCell (row.getD c [])) (columnWidth data c)).map
      fun y => ' ' :: (y ++ [' '])) =
      ((List.range (maxRowLen data)).map fun c =>
        (row.getD c [], List.replicate (columnWidth data c -
          (escapePipeInCell (row.getD c [])).length) ' ')).map wrapCell := by
    rw [List.map_map, List.map_map]
    refine List.map_congr_left ?_
    intro c _
    simp only [Function.comp, wrapCell, padEnd]
  rw [hmap]
  rw [parse_wrapped_pieces _
    (by simp [List.range_eq_nil]; omega)
    (by
      intro cp hcp
      obtain ⟨c, hcr, rfl⟩ := List.mem_map.mp hcp
      have hclt : c < row.length := hL ▸ List.mem_range.mp hcr
      have hm : row.getD c [] ∈ row := by
        rw [List.getD_eq_getElem row [] hclt]
        exact List.getElem_mem hclt
      exact hclean _ hm)
    (by
      intro cp hcp x hx
      obtain ⟨c, _, rfl⟩ := List.mem_map.mp hcp
      exact List.eq_of_mem_replicate hx)]
  congr 1
  rw [List.map_map]
  show (List.range (maxRowLen data)).map (fun c => row.getD c []) = row
  rw [← hL]
  exact getD_range_map row []

/-! ### Scanner unfolding lemmas -/

lemma scanAux_nil (f i : Nat) : scanAux f i [] = [] := by cases f <;> rfl

lemma scanAux_not_row (f i : Nat) (l : Str) (rest : List Str) (h : isTableRow l = false) :
    scanAux (f + 1) i (l :: rest) = scanAux f (i + 1) rest := by
  simp [scanAux, h]

lemma scanAux_parse_none (f i : Nat) (l : Str) (rest : List Str)
    (h1 : isTableRow l = true) (h2 : parseTableRow l = none) :
    scanAux (f + 1) i (l :: rest) = scanAux f (i + 1) rest := by
  simp [scanAux, h1, h2]

lemma scanAux_single (f i : Nat) (l : Str) (h1 : isTableRow l = true) :
    scanAux (f + 1) i [l] = [] := by
  cases h2 : parseTableRow l <;> simp [scanAux, h1, h2, scanAux_nil]

lemma scanAux_no_sep (f i : Nat) (l sep : Str) (rest2 : List Str) (hr : Row)
    (h1 : isTableRow l = true) (h2 : parseTableRow l = some hr)
    (h3 : isSeparatorRow sep = false) :
    scanAux (f + 1) i (l :: sep :: rest2) = scanAux f (i + 1) (sep :: rest2) := by
  simp [scanAux, h1, h2, h3]

lemma scanAux_table (f i : Nat) (l sep : Str) (rest2 : List Str) (hr : Row)
    (h1 : isTableRow l = true) (h2 : parseTableRow l = some hr)
    (h3 : isSeparatorRow sep = true) :
    scanAux (f + 1) i (l :: sep :: rest2) =
      { startLine := i
        endLine := i + 1 + (rest2.takeWhile dataRowPred).length
        data := hr :: (rest2.takeWhile dataRowPred).filterMap parseTableRow
        rawText := joinWith ['\n'] (l :: sep :: rest2.takeWhile dataRowPred) } ::
        scanAux f (i + 2 + (rest2.takeWhile dataRowPred).length)
          (rest2.dropWhile dataRowPred) := by
  simp [scanAux, h1, h2, h3]

/-! ### The round trip for clean uniform grids -/

lemma isTableRow_renderLine (data : List Row) (r : Row) (hpos : 0 < maxRowLen data) :
    isTableRow (renderLine data r) = true := by
  unfold renderLine
  rw [wrapped_shape _ (by simp [List.range_eq_nil]; omega)]
  exact isTableRow_wrapped _

theorem roundtrip_main (first : Row) (rest : List Row)
    (hU : ∀ r ∈ first :: rest, r.length = first.length)
    (hpos : first ≠ [])
    (hclean : ∀ r ∈ first :: rest, ∀ c ∈ r, trim c = c ∧ '\n' ∉ c ∧ '\x00' ∉ c)
    (hnosep : ∀ r ∈ rest,
      ¬(∀ c ∈ r, (∀ x ∈ c, (isWsChar x || x = ':' || x = '-') = true) ∧ '-' ∈ c)) :
    (parseMarkdownTables (tableToMarkdown (first :: rest))).map TableInfo.data =
      [first :: rest] := by
  have hml : maxRowLen (first :: rest) = first.length := maxRowLen_uniform first rest hU
  have hpos' : 0 < maxRowLen (first :: rest) := by
    rw [hml]
    exact List.length_pos.mpr hpos
  have hlines : splitOnChar '\n' (tableToMarkdown (first :: rest)) =
      renderLine (first :: rest) first :: sepLine (first :: rest) ::
        rest.map (renderLine (first :: rest)) := by
    rw [tableToMarkdown_eq]
    refine splitOnChar_joinWith '\n' _ (by simp) ?_
    intro l hl
    rcases List.mem_cons.mp hl with rfl | hl2
    · exact no_nl_renderLine _ _ fun c hc => (hclean first (by simp) c hc).2.1
    · rcases List.mem_cons.mp hl2 with rfl | hl3
      · exact no_nl_sepLine _
      · obtain ⟨r, hr, rfl⟩ := List.mem_map.mp hl3
        exact no_nl_renderLine _ _ fun c hc =>
          (hclean r (List.mem_cons_of_mem first hr) c hc).2.1
  have hparse_each : ∀ r ∈ first :: rest,
      parseTableRow (renderLine (first :: rest) r) = some r := by
    intro r hr
    refine parse_renderLine _ r (by rw [hml]; exact hU r hr) hpos' ?_
    intro c hc
    exact ⟨(hclean r hr c hc).1, (hclean r hr c hc).2.2⟩
  have hbody : ∀ l ∈ rest.map (renderLine (first :: rest)), dataRowPred l = true := by
    intro l hl
    obtain ⟨r, hr, rfl⟩ := List.mem_map.mp hl
    unfold dataRowPred
    rw [isTableRow_renderLine _ r hpos',
      isSeparatorRow_renderLine_false _ r
        (by rw [hml]; exact hU r (List.mem_cons_of_mem first hr)) hpos' (hnosep r hr)]
    rfl
  simp only [parseMarkdownTables]
  rw [hlines]
  rw [show (renderLine (first :: rest) first :: sepLine (first :: rest) ::
    rest.map (renderLine (first :: rest))).length = (rest.length + 1) + 1 by simp]
  rw [scanAux_table (rest.length + 1) 0 _ _ _ first
    (isTableRow_renderLine _ first hpos')
    (hparse_each first (List.mem_cons_self first rest))
    (isSeparatorRow_sepLine _ hpos')]
  rw [takeWhile_all_eq _ _ hbody, dropWhile_all_eq_nil _ _ hbody]
  rw [scanAux_nil]
  rw [filterMap_map_eq_self rest _ _
    fun r hr => hparse_each r (List.mem_cons_of_mem first hr)]
  simp

/-! ### The shape of every scanned table -/

lemma drop_append_length {α : Type} (a b : List α) (k : Nat) :
    (a ++ b).drop (a.length + k) = b.drop k := by
  induction a with
  | nil => simp
  | cons x t ih =>
    rw [List.cons_append, List.length_cons,
      show t.length + 1 + k = (t.length + k) + 1 by omega, List.drop_succ_cons]
    exact ih

theorem scanAux_mem (fuel : Nat) : ∀ (ls : List Str) (i : Nat) (T : TableInfo),
    ls.length ≤ fuel → T ∈ scanAux fuel i ls →
    ∃ (k : Nat) (header sep : Str) (body tail : List Str) (hr : Row),
      ls.drop k = header :: sep :: (body ++ tail) ∧
      T.startLine = i + k ∧
      T.endLine = i + k + 1 + body.length ∧
      isTableRow header = true ∧
      isSeparatorRow sep = true ∧
      (∀ l ∈ body, isTableRow l = true ∧ isSeparatorRow l = false) ∧
      parseTableRow header = some hr ∧
      T.data = hr :: body.filterMap parseTableRow ∧
      T.rawText = joinWith ['\n'] (header :: sep :: body) := by
  induction fuel with
  | zero =>
    intro ls i T _ hmem
    simp [scanAux] at hmem
  | succ f ih =>
    intro ls i T hlen hmem
    cases ls with
    | nil =>
      rw [scanAux_nil] at hmem
      simp at hmem
    | cons l rest =>
      have hlen' : rest.length ≤ f := by
        simp at hlen
        omega
      by_cases h1 : isTableRow l
      case neg =>
        rw [scanAux_not_row f i l rest (by rwa [Bool.not_eq_true] at h1)] at hmem
        obtain ⟨k, header, sep, body, tail, hr, hdrop, hstart, hend, hh1, hh2, hh3, hh4, hh5, hh6⟩ :=
          ih rest (i + 1) T hlen' hmem
        exact ⟨k + 1, header, sep, body, tail, hr,
          by rw [List.drop_succ_cons]; exact hdrop,
          by omega, by omega, hh1, hh2, hh3, hh4, hh5, hh6⟩
      case pos =>
        cases h2 : parseTableRow l with
        | none =>
          rw [scanAux_parse_none f i l rest h1 h2] at hmem
          obtain ⟨k, header, sep, body, tail, hr, hdrop, hstart, hend, hh1, hh2, hh3, hh4, hh5, hh6⟩ :=
            ih rest (i + 1) T hlen' hmem
          exact ⟨k + 1, header, sep, body, tail, hr,
            by rw [List.drop_succ_cons]; exact hdrop,
            by omega, by omega, hh1, hh2, hh3, hh4, hh5, hh6⟩
        | some hr0 =>
          cases rest with
          | nil =>
            rw [scanAux_single f i l h1] at hmem
            simp at hmem
          | cons sep rest2 =>
            by_cases h3 : isSeparatorRow sep
            case neg =>
              rw [scanAux_no_sep f i l sep rest2 hr0 h1 h2
                (by rwa [Bool.not_eq_true] at h3)] at hmem
              obtain ⟨k, header, sep', body, tail, hr, hdrop, hstart, hend, hh1, hh2, hh3, hh4, hh5, hh6⟩ :=
                ih (sep :: rest2) (i + 1) T hlen' hmem
              exact ⟨k + 1, header, sep', body, tail, hr,
                by rw [List.drop_succ_cons]; exact hdrop,
                by omega, by omega, hh1, hh2, hh3, hh4, hh5, hh6⟩
            case pos =>
              rw [scanAux_table f i l sep rest2 hr0 h1 h2 h3] at hmem
              rcases List.mem_cons.mp hmem with rfl | hmem2
              · refine ⟨0, l, sep, rest2.takeWhile dataRowPred,
                  rest2.dropWhile dataRowPred, hr0,
                  by simp [List.takeWhile_append_dropWhile],
                  by simp, by simp, h1, h3, ?_, h2, rfl, rfl⟩
                intro l' hl'
                have hp := List.mem_takeWhile_imp hl'
                unfold dataRowPred at hp
                rw [Bool.and_eq_true] at hp
                exact ⟨hp.1, by simpa using hp.2⟩
              · have hlen2 : (rest2.dropWhile dataRowPred).length ≤ f := by
                  have hd := dropWhile_length_le dataRowPred rest2
                  simp at hlen
                  omega
                obtain ⟨k, header, sep', body, tail, hr, hdrop, hstart, hend, hh1, hh2, hh3, hh4, hh5, hh6⟩ :=
                  ih (rest2.dropWhile dataRowPred)
                    (i + 2 + (rest2.takeWhile dataRowPred).length) T hlen2 hmem2
                refine ⟨2 + (rest2.takeWhile dataRowPred).length + k, header, sep', body,
                  tail, hr, ?_, by omega, by omega, hh1, hh2, hh3, hh4, hh5, hh6⟩
                have hstep : (l :: sep :: rest2).drop
                    (2 + (rest2.takeWhile dataRowPred).length + k) =
                    rest2.drop ((rest2.takeWhile dataRowPred).length + k) := by
                  rw [show 2 + (rest2.takeWhile dataRowPred).length + k =
                    ((rest2.takeWhile dataRowPred).length + k) + 1 + 1 by omega]
                  rw [List.drop_succ_cons, List.drop_succ_cons]
                have h4 : rest2.drop ((rest2.takeWhile dataRowPred).length + k) =
                    (rest2.dropWhile dataRowPred).drop k := by
                  have h5 := drop_append_length (rest2.takeWhile dataRowPred)
                    (rest2.dropWhile dataRowPred) k
                  rwa [List.takeWhile_append_dropWhile] at h5
                rw [hstep, h4]
                exact hdrop

theorem tables_mem (text : Str) (T : TableInfo) (h : T ∈ parseMarkdownTables text) :
    ∃ (header sep : Str) (body tail : List Str) (hr : Row),
      (splitOnChar '\n' text).drop T.startLine = header :: sep :: (body ++ tail) ∧
      T.endLine = T.startLine + 1 + body.length ∧
      isTableRow header = true ∧
      isSeparatorRow sep = true ∧
      (∀ l ∈ body, isTableRow l = true ∧ isSeparatorRow l = false) ∧
      parseTableRow header = some hr ∧
      T.data = hr :: body.filterMap parseTableRow ∧
      T.rawText = joinWith ['\n'] (header :: sep :: body) := by
  unfold parseMarkdownTables at h
  obtain ⟨k, header, sep, body, tail, hr, hdrop, hstart, hend, hh1, hh2, hh3, hh4, hh5, hh6⟩ :=
    scanAux_mem (splitOnChar '\n' text).length (splitOnChar '\n' text) 0 T (Nat.le_refl _) h
  have hk : T.startLine = k := by omega
  subst hk
  exact ⟨header, sep, body, tail, hr, hdrop, by omega, hh1, hh2, hh3, hh4, hh5, hh6⟩

lemma parse_some_of_isTableRow (l : Str) (h : isTableRow l = true) :
    ∃ r, parseTableRow l = some r := by
  unfold isTableRow at h
  unfold parseTableRow
  rw [if_pos h]
  exact ⟨_, rfl⟩

lemma mem_lines_of_shape (text : Str) (k : Nat) (header sep : Str)
    (body tail : List Str)
    (hdrop : (splitOnChar '\n' text).drop k = header :: sep :: (body ++ tail)) :
    ∀ l ∈ header :: sep :: body, '\n' ∉ l := by
  intro l hl
  have hmem : l ∈ splitOnChar '\n' text := by
    refine List.drop_subset k (splitOnChar '\n' text) ?_
    rw [hdrop]
    rcases List.mem_cons.mp hl with rfl | hl2
    · exact List.mem_cons_self _ _
    · rcases List.mem_cons.mp hl2 with rfl | hl3
      · exact List.mem_cons_of_mem _ (List.mem_cons_self _ _)
      · exact List.mem_cons_of_mem _ (List.mem_cons_of_mem _
          (List.mem_append.mpr (Or.inl hl3)))
  exact mem_splitOnChar_no_sep '\n' text l hmem

/-- C3: every scanned table has at least one row; its raw text has exactly
`data.length + 1` line-feed-separated lines, which also equals
`endLine - startLine + 1` (the separator line is consumed but not stored,
and no other consumed line is missing from `data`). -/
theorem c3_table_line_counts (text : Str) (T : TableInfo)
    (h : T ∈ parseMarkdownTables text) :
    0 < T.data.length ∧
    (splitOnChar '\n' T.rawText).length = T.data.length + 1 ∧
    T.data.length + 1 = T.endLine - T.startLine + 1 := by
  obtain ⟨header, sep, body, tail, hr, hdrop, hend, hh1, hh2, hh3, hh4, hh5, hh6⟩ :=
    tables_mem text T h
  have hnl := mem_lines_of_shape text T.startLine header sep body tail hdrop
  have hsplit : splitOnChar '\n' T.rawText = header :: sep :: body := by
    rw [hh6]
    exact splitOnChar_joinWith '\n' _ (by simp) hnl
  have hblen : (body.filterMap parseTableRow).length = body.length := by
    refine filterMap_length_of_some _ _ ?_
    intro x hx
    exact parse_some_of_isTableRow x (hh3 x hx).1
  refine ⟨by rw [hh5]; simp, ?_, ?_⟩
  · rw [hsplit, hh5]
    simp [hblen]
  · rw [hh5]
    simp only [List.length_cons, hblen]
    omega

/-- C3 witness at a concrete document. -/
theorem c3_table_line_counts_witness :
    0 < ([[str "a"], [str "b"]] : List Row).length ∧
    (splitOnChar '\n' (str "| a |\n|---|\n| b |")).length =
      ([[str "a"], [str "b"]] : List Row).length + 1 ∧
    ([[str "a"], [str "b"]] : List Row).length + 1 = 2 - 0 + 1 := by
  have h := c3_table_line_counts (str "| a |\n|---|\n| b |")
    ⟨0, 2, [[str "a"], [str "b"]], str "| a |\n|---|\n| b |"⟩ (by decide)
  simpa using h

/-- C4: a table starts at line `i` only when line `i + 1` exists and is a
separator row; the two-line pipe document with no separator yields no
tables at all. -/
theorem c4_separator_adjacency (text : Str) (T : TableInfo)
    (h : T ∈ parseMarkdownTables text) :
    (∃ sep, (splitOnChar '\n' text)[T.startLine + 1]? = some sep ∧
      isSeparatorRow sep = true) ∧
    parseMarkdownTables (str "| A | B |\n| C | D |") = [] := by
  refine ⟨?_, by decide⟩
  obtain ⟨header, sep, body, tail, hr, hdrop, _, _, hh2, _⟩ := tables_mem text T h
  refine ⟨sep, ?_, hh2⟩
  have h2 := List.getElem?_drop (splitOnChar '\n' text) T.startLine 1
  rw [hdrop] at h2
  simpa using h2.symm

/-- C4 witness at a concrete document. -/
theorem c4_separator_adjacency_witness :
    (∃ sep, (splitOnChar '\n' (str "| a |\n|---|"))[0 + 1]? = some sep ∧
      isSeparatorRow sep = true) ∧
    parseMarkdownTables (str "| A | B |\n| C | D |") = [] := by
  exact c4_separator_adjacency (str "| a |\n|---|")
    ⟨0, 1, [[str "a"]], str "| a |\n|---|"⟩ (by decide)

/-- C5: a column-count difference between the new and the original grid makes
the diff-preserving serializer fall back to the full canonical reformat,
with no error signalled. -/
theorem c5_column_count_fallback (data originalData : List Row) (originalRawText : Str)
    (hne : data ≠ []) (hdiff : maxRowLen data ≠ maxRowLen originalData) :
    tableToMarkdownPreserveFormat data originalRawText originalData =
      tableToMarkdown data := by
  obtain ⟨first, rest, rfl⟩ := List.exists_cons_of_ne_nil hne
  simp only [tableToMarkdownPreserveFormat]
  rw [if_pos]
  by_cases ho : 0 < originalData.length
  · simpa [ho] using hdiff
  · have hnil : originalData = [] := by
      cases originalData with
      | nil => rfl
      | cons a b => simp at ho
    subst hnil
    simp only [if_neg ho]
    simpa [maxRowLen] using hdiff

/-- C5 witness at concrete grids. -/
theorem c5_column_count_fallback_witness :
    tableToMarkdownPreserveFormat [[str "a"]] (str "") [] = tableToMarkdown [[str "a"]] :=
  c5_column_count_fallback [[str "a"]] [] (str "") (by decide) (by decide)

/-- C8: `parseTableRow` returns null exactly when the trimmed line does not
both start and end with a pipe; any successful parse yields at least one
cell; the one-character line consisting of a single pipe parses to one
empty cell. -/
theorem c8_parse_row_contract (line : Str) :
    (parseTableRow line = none ↔
      ¬(strStartsWith (trim line) '|' = true ∧ strEndsWith (trim line) '|' = true)) ∧
    (∀ cells, parseTableRow line = some cells → cells ≠ []) ∧
    parseTableRow ['|'] = some [[]] := by
  refine ⟨?_, ?_, by decide⟩
  · unfold parseTableRow
    by_cases h : strStartsWith (trim line) '|' && strEndsWith (trim line) '|'
    · rw [if_pos h]
      refine iff_of_false (by simp) (not_not_intro ?_)
      rw [Bool.and_eq_true] at h
      exact h
    · rw [if_neg h]
      refine iff_of_true rfl ?_
      intro hC
      exact h (by rw [Bool.and_eq_true]; exact hC)
  · intro cells hc
    unfold parseTableRow at hc
    by_cases h : strStartsWith (trim line) '|' && strEndsWith (trim line) '|'
    · rw [if_pos h] at hc
      have h2 := Option.some.inj hc
      rw [← h2]
      intro hnil
      exact splitOnChar_ne_nil '|' _ (List.map_eq_nil_iff.mp hnil)
    · rw [if_neg h] at hc
      cases hc

/-- C8 witness: the single-pipe line parses to a non-empty cell list. -/
theorem c8_parse_row_contract_witness : ([[]] : List Str) ≠ [] :=
  (c8_parse_row_contract ['|']).2.1 [[]] (c8_parse_row_contract ['|']).2.2

/-- C9: a header/separator table followed by a short data row among full
rows still parses as a single table with each row kept at its own length;
the three-line-table input yields `data.length = 3` with row lengths
3, 2, 3. -/
theorem c9_ragged_rows :
    parseMarkdownTables (str "| a | b | c |\n|---|---|---|\n| d | e |\n| f | g | h |") =
      [⟨0, 3,
        [[str "a", str "b", str "c"], [str "d", str "e"], [str "f", str "g", str "h"]],
        str "| a | b | c |\n|---|---|---|\n| d | e |\n| f | g | h |"⟩] ∧
    ([[str "a", str "b", str "c"], [str "d", str "e"],
      [str "f", str "g", str "h"]] : List Row).map List.length = [3, 2, 3] := by
  constructor
  · decide
  · decide

/-- C1 counterexample: the grid whose single cell carries surrounding
whitespace is not recovered by scanning its canonical serialization (the
parser trims the cell), so the round trip fails for arbitrary cell strings. -/
theorem c1_roundtrip_counterexample :
    ((parseMarkdownTables (tableToMarkdown [[str " a "]])).map TableInfo.data).head? ≠
      some [[str " a "]] := by decide

/-- C1 (amended): for every non-empty grid of uniform row length with at
least one column, whose cells are trimmed, free of line feeds and of the
NUL sentinel character, and in which no row after the header consists only
of separator-class cells (whitespace/colon/dash with at least one dash),
scanning the canonical serialization returns exactly one table whose data
deep-equals the grid. -/
theorem c1_roundtrip_amended (first : Row) (rest : List Row)
    (hU : ∀ r ∈ first :: rest, r.length = first.length)
    (hpos : first ≠ [])
    (hclean : ∀ r ∈ first :: rest, ∀ c ∈ r, trim c = c ∧ '\n' ∉ c ∧ '\x00' ∉ c)
    (hnosep : ∀ r ∈ rest,
      ¬(∀ c ∈ r, (∀ x ∈ c, (isWsChar x || x = ':' || x = '-') = true) ∧ '-' ∈ c)) :
    (parseMarkdownTables (tableToMarkdown (first :: rest))).map TableInfo.data =
      [first :: rest] :=
  roundtrip_main first rest hU hpos hclean hnosep

/-- C1 witness at a concrete clean uniform grid. -/
theorem c1_roundtrip_amended_witness :
    (parseMarkdownTables (tableToMarkdown [[str "a", str "bb"], [str "c", str "d"]])).map
      TableInfo.data = [[[str "a", str "bb"], [str "c", str "d"]]] :=
  c1_roundtrip_amended [str "a", str "bb"] [[str "c", str "d"]]
    (by decide) (by decide) (by decide) (by decide)

/-- C7 counterexample: a pipe-containing cell value with trailing whitespace
comes back trimmed, so serialize-then-scan is not the identity on all
pipe-containing, line-feed-free cell values. -/
theorem c7_escape_roundtrip_counterexample :
    ((parseMarkdownTables (tableToMarkdown [[str "a| "]])).map TableInfo.data).head? ≠
      some [[str "a| "]] := by decide

/-- C7 (amended): for every cell value that contains a literal pipe, no line
feed, no NUL sentinel character, and equals its own trim, serializing the
grid containing it and re-scanning yields back the original value with the
literal pipe, not the escaped form. -/
theorem c7_escape_roundtrip (v : Str) (hpipe : '|' ∈ v) (hnl : '\n' ∉ v)
    (hnul : '\x00' ∉ v) (htrim : trim v = v) :
    (parseMarkdownTables (tableToMarkdown [[v]])).map TableInfo.data = [[[v]]] := by
  refine roundtrip_main [v] [] (by simp) (by simp) ?_ (by simp)
  intro r hr c hc
  have hr2 : r = [v] := by simpa using hr
  subst hr2
  have hc2 : c = v := by simpa using hc
  subst hc2
  exact ⟨htrim, hnl, hnul⟩

/-- C7 witness at the pipe-containing value "a|b". -/
theorem c7_escape_roundtrip_witness :
    (parseMarkdownTables (tableToMarkdown [[str "a|b"]])).map TableInfo.data =
      [[[str "a|b"]]] :=
  c7_escape_roundtrip (str "a|b") (by decide) (by decide) (by decide) (by decide)

/-- C6 counterexample: a line feed inside a header cell shifts the lines of
the output, so the second line of the canonical serialization is not a
separator row for every non-empty grid. -/
theorem c6_separator_width_counterexample :
    isSeparatorRow ((splitOnChar '\n' (tableToMarkdown [[str "a\nb"]])).getD 1 []) =
      false ∧
    (splitOnChar '\n' (tableToMarkdown [[str "a\nb"]])).getD 1 [] = str "b |" := by
  constructor
  · decide
  · decide

/-- C6 (amended): for every non-empty grid whose first-row cells contain no
line feed, the second line of the canonical serialization is the separator
line; its dash run for each column has length exactly
max(3, maximum escaped-cell length in that column), hence always at least
3; and when the grid has at least one column that line satisfies
`isSeparatorRow`. -/
theorem c6_separator_width (first : Row) (rest : List Row)
    (hnl : ∀ c ∈ first, '\n' ∉ c) :
    (splitOnChar '\n' (tableToMarkdown (first :: rest))).getD 1 [] =
      sepLine (first :: rest) ∧
    sepLine (first :: rest) =
      ['|', ' '] ++ joinWith [' ', '|', ' ']
        ((List.range (maxRowLen (first :: rest))).map fun col =>
          List.replicate (specColumnWidth (first :: rest) col) '-') ++ [' ', '|'] ∧
    (∀ col, 3 ≤ specColumnWidth (first :: rest) col) ∧
    (0 < maxRowLen (first :: rest) →
      isSeparatorRow ((splitOnChar '\n' (tableToMarkdown (first :: rest))).getD 1 []) =
        true) := by
  have hnla : '\n' ∉ renderLine (first :: rest) first := no_nl_renderLine _ _ hnl
  have hgetd : (splitOnChar '\n' (tableToMarkdown (first :: rest))).getD 1 [] =
      sepLine (first :: rest) := by
    rw [tableToMarkdown_eq, joinWith_cons_cons]
    rw [show (renderLine (first :: rest) first ++ ['\n'] ++
        joinWith ['\n'] (sepLine (first :: rest) :: rest.map (renderLine (first :: rest))) :
        Str) =
      renderLine (first :: rest) first ++ '\n' ::
        joinWith ['\n'] (sepLine (first :: rest) :: rest.map (renderLine (first :: rest)))
      by simp]
    rw [splitOnChar_append_cons '\n' _ _ hnla]
    rw [List.getD_cons_succ]
    cases hrest : rest.map (renderLine (first :: rest)) with
    | nil =>
      rw [show joinWith ['\n'] [sepLine (first :: rest)] = sepLine (first :: rest) from rfl]
      rw [splitOnChar_no_sep '\n' _ (no_nl_sepLine _)]
      rfl
    | cons x xs =>
      rw [joinWith_cons_cons]
      rw [show (sepLine (first :: rest) ++ ['\n'] ++ joinWith ['\n'] (x :: xs) : Str) =
        sepLine (first :: rest) ++ '\n' :: joinWith ['\n'] (x :: xs) by simp]
      rw [splitOnChar_append_cons '\n' _ _ (no_nl_sepLine _)]
      rfl
  refine ⟨hgetd, ?_, ?_, ?_⟩
  · unfold sepLine
    congr 1
    congr 1
    congr 1
    refine List.map_congr_left ?_
    intro col _
    rw [columnWidth_eq_spec]
  · intro col
    exact Nat.le_max_left 3 _
  · intro hpos
    rw [hgetd]
    exact isSeparatorRow_sepLine _ hpos

/-- C6 witness at a concrete one-cell grid. -/
theorem c6_separator_width_witness :
    (splitOnChar '\n' (tableToMarkdown [[str "ab"]])).getD 1 [] = sepLine [[str "ab"]] ∧
    3 ≤ specColumnWidth [[str "ab"]] 0 :=
  ⟨(c6_separator_width [str "ab"] [] (by decide)).1,
    (c6_separator_width [str "ab"] [] (by decide)).2.2.1 0⟩

/-! ### C2: the diff-preserving serializer is the identity on unchanged data -/

lemma isSeparatorRow_ne_nil (s : Str) (h : isSeparatorRow s = true) : s ≠ [] := by
  intro e
  subst e
  revert h
  decide

/-- C2 counterexample: a scanned table whose header line itself looks like a
separator row (here `|  -  |`) is excluded from the original data lines,
so re-serializing its own unchanged data is not byte-identical to the raw
text. -/
theorem c2_preserve_identity_counterexample :
    (parseMarkdownTables (str "|  -  |\n| --- |")).map
      (fun T => tableToMarkdownPreserveFormat T.data T.rawText T.data) ≠
    (parseMarkdownTables (str "|  -  |\n| --- |")).map TableInfo.rawText := by
  decide

/-- C2 (amended): for every table produced by the scanner whose first raw
line is not itself a separator row, serializing the unchanged data with
`tableToMarkdownPreserveFormat` returns the raw text byte-identically. -/
theorem c2_preserve_identity (text : Str) (T : TableInfo) (newData : List Row)
    (hT : T ∈ parseMarkdownTables text)
    (hhead : isSeparatorRow ((splitOnChar '\n' T.rawText).getD 0 []) = false)
    (hnew : newData = T.data) :
    tableToMarkdownPreserveFormat newData T.rawText T.data = T.rawText := by
  subst hnew
  obtain ⟨header, sep, body, tail, hr, hdrop, hend, hh1, hh2, hh3, hh4, hh5, hh6⟩ :=
    tables_mem text T hT
  have hnl := mem_lines_of_shape text T.startLine header sep body tail hdrop
  have hsplit : splitOnChar '\n' T.rawText = header :: sep :: body := by
    rw [hh6]
    exact splitOnChar_joinWith '\n' _ (by simp) hnl
  have hheadns : isSeparatorRow header = false := by
    rw [hsplit] at hhead
    simpa using hhead
  have hblen : (body.filterMap parseTableRow).length = body.length :=
    filterMap_length_of_some _ _ fun x hx => parse_some_of_isTableRow x (hh3 x hx).1
  have hodl : originalDataLinesOf T.rawText = header :: body := by
    unfold originalDataLinesOf
    rw [hsplit]
    rw [show dropSecondLine (header :: sep :: body) = header :: body from rfl]
    refine List.filter_eq_self.mpr ?_
    intro a ha
    rcases List.mem_cons.mp ha with rfl | ha2
    · rw [hh1, hheadns]
      rfl
    · rw [(hh3 a ha2).1, (hh3 a ha2).2]
      rfl
  rw [hh5]
  simp only [tableToMarkdownPreserveFormat]
  rw [if_neg (by simp)]
  rw [hodl, hsplit]
  have e0 : emitRow (hr :: body.filterMap parseTableRow)
      (hr :: body.filterMap parseTableRow) (header :: body) 0 hr = header := by
    unfold emitRow
    rw [if_pos]
    · rfl
    · rw [Bool.and_eq_true]
      exact ⟨by simp [rowMatchesOriginal], by simp⟩
  have e1 : separatorLineOf (header :: sep :: body) hr = sep := by
    unfold separatorLineOf
    rw [show (header :: sep :: body)[1]? = some sep by simp]
    show (if sep.isEmpty = true then synthSeparator hr else sep) = sep
    rw [if_neg]
    intro he
    exact isSeparatorRow_ne_nil sep hh2 (List.isEmpty_iff.mp he)
  have e2 : (List.range (body.filterMap parseTableRow).length).map
      (fun j => emitRow (hr :: body.filterMap parseTableRow)
        (hr :: body.filterMap parseTableRow) (header :: body) (j + 1)
        ((body.filterMap parseTableRow).getD j [])) = body := by
    rw [hblen]
    rw [List.map_congr_left (g := fun j => body.getD j []) ?_]
    · exact getD_range_map body []
    · intro j hj
      have hjlt : j < body.length := List.mem_range.mp hj
      unfold emitRow
      rw [if_pos]
      · exact List.getD_cons_succ
      · rw [Bool.and_eq_true]
        refine ⟨?_, ?_⟩
        · simp only [rowMatchesOriginal, Bool.and_eq_true]
          refine ⟨?_, by simp⟩
          simp only [List.length_cons, hblen]
          simp
          omega
        · simp only [List.length_cons]
          simp
          omega
  rw [e0, e1, e2, hh6]

/-- C2 witness at a concrete scanned table. -/
theorem c2_preserve_identity_witness :
    tableToMarkdownPreserveFormat [[str "a"], [str "b"]] (str "| a |\n|---|\n| b |")
      [[str "a"], [str "b"]] = str "| a |\n|---|\n| b |" :=
  c2_preserve_identity (str "| a |\n|---|\n| b |")
    ⟨0, 2, [[str "a"], [str "b"]], str "| a |\n|---|\n| b |"⟩
    [[str "a"], [str "b"]] (by decide) (by decide) rfl

/-! ### C10: changed rows keep their own cell count in diff-preserving mode -/

/-- C10: a changed row is emitted by `formatRow` with exactly as many
pipe-separated cells as the row itself contains (parsing the emitted line
splits into `row.length` cells, with no padding up to the table's column
count); concretely, a shortened changed row in a three-column table is
emitted as `| d |` while the canonical serializer would pad it to three
cells. -/
theorem c10_unpadded_changed_row (row : Row) (hne : row ≠ []) :
    (∃ cells, parseTableRow (formatRow row) = some cells ∧
      cells.length = row.length) ∧
    tableToMarkdownPreserveFormat [[str "a", str "b", str "c"], [str "d"]]
        (str "| a | b | c |\n| --- | --- | --- |\n| d | e | f |")
        [[str "a", str "b", str "c"], [str "d", str "e", str "f"]] =
      str "| a | b | c |\n| --- | --- | --- |\n| d |" ∧
    (splitOnChar '\n'
      (tableToMarkdown [[str "a", str "b", str "c"], [str "d"]])).getD 2 [] =
      str "| d   |     |     |" := by
  refine ⟨?_, by decide, by decide⟩
  have hshape : formatRow row =
      '|' :: joinWith ['|'] ((row.map fun c => (c, ([] : Str))).map wrapCell) ++ ['|'] := by
    unfold formatRow
    rw [List.map_map]
    congr 2
    congr 1
    refine List.map_congr_left ?_
    intro c _
    simp [wrapCell]
  have hpieces : ∀ cp ∈ row.map fun c => (c, ([] : Str)), ∀ x ∈ cp.2, x = ' ' := by
    intro cp hcp x hx
    obtain ⟨c, _, rfl⟩ := List.mem_map.mp hcp
    simp at hx
  have hparse : parseTableRow (formatRow row) =
      some (((row.map fun c => (c, ([] : Str))).map wrapCellP).map
        fun cell => trim (restorePlaceholder cell)) := by
    rw [hshape]
    simp only [parseTableRow]
    rw [trim_pipe_wrapped]
    rw [if_pos (by
      rw [Bool.and_eq_true]
      refine ⟨rfl, ?_⟩
      unfold strEndsWith
      rw [show ('|' :: joinWith ['|'] ((row.map fun c => (c, ([] : Str))).map wrapCell) ++
        ['|'] : Str) =
        ('|' :: joinWith ['|'] ((row.map fun c => (c, ([] : Str))).map wrapCell)) ++ ['|']
        by simp]
      rw [List.getLast?_concat]
      simp)]
    rw [show (('|' :: joinWith ['|'] ((row.map fun c => (c, ([] : Str))).map wrapCell) ++
      ['|'] : Str).drop 1) =
      joinWith ['|'] ((row.map fun c => (c, ([] : Str))).map wrapCell) ++ ['|'] by simp]
    rw [show ((joinWith ['|'] ((row.map fun c => (c, ([] : Str))).map wrapCell) ++
      ['|'] : Str).dropLast) =
      joinWith ['|'] ((row.map fun c => (c, ([] : Str))).map wrapCell)
      by rw [List.dropLast_concat]]
    rw [protect_join _ hpieces]
    rw [splitOnChar_joinWith '|' _ (by simp [hne]) (fun l hl => by
      obtain ⟨cp, hcp, rfl⟩ := List.mem_map.mp hl
      exact no_pipe_wrapCellP cp (hpieces cp hcp))]
  refine ⟨_, hparse, ?_⟩
  simp

/-- C10 witness at the one-cell row containing "x". -/
theorem c10_unpadded_changed_row_witness :
    (∃ cells, parseTableRow (formatRow [str "x"]) = some cells ∧
      cells.length = [str "x"].length) ∧
    tableToMarkdownPreserveFormat [[str "a", str "b", str "c"], [str "d"]]
        (str "| a | b | c |\n| --- | --- | --- |\n| d | e | f |")
        [[str "a", str "b", str "c"], [str "d", str "e", str "f"]] =
      str "| a | b | c |\n| --- | --- | --- |\n| d |" ∧
    (splitOnChar '\n'
      (tableToMarkdown [[str "a", str "b", str "c"], [str "d"]])).getD 2 [] =
      str "| d   |     |     |" :=
  c10_unpadded_changed_row [str "x"] (by decide)
